import Mathlib

/-!
Verification of the comment-insights pipeline
(`src/youtube_comment_analyzer.py`).

The Python program is embedded shallowly:

* `extract_video_id` embeds the regex search
  `(?:v=|\/)([0-9A-Za-z_-]{11}).*` over the URL characters.
* `get_comments` embeds the pagination loop; the remote API is an oracle
  parameter returning either a page (items plus optional continuation
  token) or a transport error (`HttpError`).  Fuel makes the loop total;
  `none` marks fuel exhaustion and is never the value of a terminating
  run.  The outcome records the returned list, the number of API calls
  issued and whether the run ended in the `except HttpError` handler.
* `analyze_sentiment` and `extract_common_words` embed the annotation and
  word-count steps; the TextBlob scorer is an oracle `String → ℚ × ℚ`.
  A Python dict may lack the `text` key, so `Comment.text` is an
  `Option`; accessing a missing key raises `KeyError`, embedded as a
  `none` result of the whole call.
* `generate_report` embeds the orchestration and its three error
  returns, with the exact message strings of the source.

Machine floats of the source are modelled by `ℚ`; the ASCII fragment of
the Python `\w` class and of `str.lower` is modelled explicitly.
-/

namespace CommentInsights

/-- Comment record built by `get_comments`: the five fetched fields plus
the three annotation fields that `analyze_sentiment` adds later.  `text`
is optional because a Python dict may lack the key entirely. -/
structure Comment where
  author : String
  text : Option String
  published_at : String
  like_count : Nat
  reply_count : Nat
  polarity : Option Rat := none
  subjectivity : Option Rat := none
  sentiment : Option String := none
deriving DecidableEq

/-- Video metadata returned by `get_video_details`. -/
structure VideoDetails where
  title : String
  channel : String
  published_at : String
  view_count : Nat
  like_count : Nat
  comment_count : Nat
  duration : String
deriving DecidableEq

/-! ### Video Resolver: `extract_video_id` -/

/-- Character class `[0-9A-Za-z_-]` of the video-id regex. -/
def isIdChar (c : Char) : Bool :=
  c.isAlpha || c.isDigit || c == '-' || c == '_'

/-- Attempt of the regex tail at one position: eleven characters of the
id class must follow (the trailing `.*` of the pattern matches anything,
including nothing, so it imposes no constraint). -/
def idRunAt (cs : List Char) : Option (List Char) :=
  if 11 ≤ cs.length ∧ (cs.take 11).all isIdChar then some (cs.take 11) else none

/-- One attempt of the alternation `(?:v=|\/)` followed by a token rule
`f` on the remainder; the token rule receives the characters after the
marker. -/
def matchWith (f : List Char → Option (List Char)) : List Char → Option (List Char)
  | [] => none
  | [c] => if c = '/' then f [] else none
  | c :: d :: rest =>
    if c = 'v' ∧ d = '=' then f rest
    else if c = '/' then f (d :: rest)
    else none

/-- Left-to-right scan of `re.search`: the attempt at the leftmost
position wins (for this pattern no attempt can succeed at the empty
suffix, which the scan therefore skips). -/
def searchWith (f : List Char → Option (List Char)) : List Char → Option (List Char)
  | [] => none
  | c :: rest =>
    match matchWith f (c :: rest) with
    | some t => some t
    | none => searchWith f rest

/-- Attempt of the whole pattern `(?:v=|\/)([0-9A-Za-z_-]{11})` at one
position of the subject string. -/
def matchVideoId : List Char → Option (List Char) :=
  matchWith idRunAt

/-- Embedding of `extract_video_id`: group 1 of the first match of
`(?:v=|\/)([0-9A-Za-z_-]{11}).*`, or `None`. -/
def extract_video_id (url : String) : Option String :=
  (searchWith idRunAt url.data).map fun l => ⟨l⟩

/-- Modelled from the spec (section 4.1): a maximal run of EXACTLY 11
id-class characters; a longer run is not accepted. -/
def exactRun11 (cs : List Char) : Option (List Char) :=
  if (cs.takeWhile isIdChar).length = 11 then some (cs.take 11) else none

/-- Resolver as the spec words it: the first maximal run of exactly 11
id-class characters after a `v=` marker or a `/` separator. -/
def resolverSpec (url : String) : Option String :=
  (searchWith exactRun11 url.data).map fun l => ⟨l⟩

/-- Amended token rule: at least 11 id-class characters follow the
marker, and the token is the first 11 of them. -/
def atLeastRun11 (cs : List Char) : Option (List Char) :=
  if 11 ≤ (cs.takeWhile isIdChar).length then some (cs.take 11) else none

/-- Amended matching rule at one position: marker then `atLeastRun11`. -/
def amendedMatchVideoId : List Char → Option (List Char) :=
  matchWith atLeastRun11

/-! ### Sentiment Annotator: `analyze_sentiment` -/

/-- Fixed-threshold labelling of a polarity value, exactly the
`if/elif/else` of the source. -/
def sentimentLabel (p : Rat) : String :=
  if p > 1/10 then "positive"
  else if p < -(1/10) then "negative"
  else "neutral"

/-- Annotation of a single comment.  Reading `comment['text']` raises
`KeyError` when the key is absent, hence the `none` result. -/
def annotateComment (scorer : String → Rat × Rat) (c : Comment) : Option Comment :=
  match c.text with
  | none => none
  | some t =>
    some { c with
      polarity := some (scorer t).1
      subjectivity := some (scorer t).2
      sentiment := some (sentimentLabel (scorer t).1) }

/-- Embedding of `analyze_sentiment`: annotate every comment in fetch
order; a raised `KeyError` aborts the whole call. -/
def analyze_sentiment (scorer : String → Rat × Rat) : List Comment → Option (List Comment)
  | [] => some []
  | c :: rest =>
    match annotateComment scorer c with
    | none => none
    | some c' =>
      match analyze_sentiment scorer rest with
      | none => none
      | some rest' => some (c' :: rest')

/-! ### Lexical Aggregator: `extract_common_words` -/

/-- ASCII fragment of the `\w` class used by the word-boundary `\b` of
the token regex. -/
def isWordChar (c : Char) : Bool :=
  c.isAlpha || c.isDigit || c == '_'

/-- Maximal runs of word characters, accumulator-style. -/
def wordRunsAux : List Char → List Char → List (List Char)
  | acc, [] => if acc.isEmpty then [] else [acc.reverse]
  | acc, c :: rest =>
    if isWordChar c then wordRunsAux (c :: acc) rest
    else if acc.isEmpty then wordRunsAux [] rest
    else acc.reverse :: wordRunsAux [] rest

/-- Maximal runs of word characters of a string. -/
def wordRuns (s : List Char) : List (List Char) :=
  wordRunsAux [] s

/-- ASCII lowering of one character, the fragment of `str.lower`
relevant here. -/
def lowerChar (c : Char) : Char := Char.toLower c

/-- Character list of `text.lower()`. -/
def lowerChars (s : String) : List Char := s.data.map lowerChar

/-- Embedding of `re.findall(r'\b[a-zA-Z]{n,}\b', text.lower())` for
`1 ≤ n`: the matches are exactly the maximal word-character runs that
consist of letters only and have length at least `n`. -/
def tokensOfText (minLen : Nat) (s : String) : List String :=
  ((wordRuns (lowerChars s)).filter
    (fun r => decide (minLen ≤ r.length) && r.all Char.isAlpha)).map fun r => ⟨r⟩

/-- Tokens contributed by one comment after the stop-word filter;
`none` embeds the `KeyError` on a missing `text` key. -/
def commentTokens (minLen : Nat) (stops : List String) (c : Comment) : Option (List String) :=
  c.text.map fun t => (tokensOfText minLen t).filter (fun w => decide (w ∉ stops))

/-- The `all_words` list of the source: concatenation over the comments
in order. -/
def allTokens (minLen : Nat) (stops : List String) : List Comment → Option (List String)
  | [] => some []
  | c :: rest =>
    match commentTokens minLen stops c with
    | none => none
    | some ws =>
      match allTokens minLen stops rest with
      | none => none
      | some rest' => some (ws ++ rest')

/-- Recursion behind `countOcc`; the fuel argument only makes the
recursion structural and is always instantiated with the list length. -/
def countOccAux : Nat → List String → List (String × Nat)
  | _, [] => []
  | 0, _ :: _ => []
  | fuel + 1, w :: rest =>
    (w, 1 + rest.count w) :: countOccAux fuel (rest.filter (fun x => x != w))

/-- Association list of `collections.Counter(all_words)`: keys in first
occurrence order, each with its total number of occurrences. -/
def countOcc (l : List String) : List (String × Nat) :=
  countOccAux l.length l

/-- Order used by `Counter.most_common`: larger counts first. -/
def byCountDesc (a b : String × Nat) : Prop := b.2 ≤ a.2

instance : DecidableRel byCountDesc := fun a b => inferInstanceAs (Decidable (b.2 ≤ a.2))

instance : IsTotal (String × Nat) byCountDesc := ⟨fun a b => Nat.le_total b.2 a.2⟩

instance : IsTrans (String × Nat) byCountDesc :=
  ⟨fun _ _ _ h1 h2 => Nat.le_trans h2 h1⟩

/-- Embedding of `Counter.most_common(n)`: stable sort by descending
count, first `n` entries. -/
def mostCommon (n : Nat) (l : List (String × Nat)) : List (String × Nat) :=
  (l.insertionSort byCountDesc).take n

/-- Built-in stop-word set of the source, in source order. -/
def defaultStopwords : List String :=
  ["the", "and", "is", "of", "to", "in", "that", "it", "with", "for", "on", "at",
   "this", "was", "are", "be", "as", "but", "or", "have", "from", "by", "not",
   "what", "all", "were", "when", "we", "there", "been", "one", "will", "would",
   "who", "you", "your", "they", "their", "has", "had", "how", "up", "his",
   "her", "an", "my", "so", "if", "out", "about", "me", "no", "more", "do", "can"]

/-- Embedding of `extract_common_words(comments, min_length, max_words,
stopwords)`. -/
def extract_common_words (comments : List Comment) (minLen : Nat) (maxWords : Nat)
    (stops : List String) : Option (List (String × Nat)) :=
  (allTokens minLen stops comments).map fun ws => mostCommon maxWords (countOcc ws)

/-! ### Comment Paginator: `get_comments` -/

/-- One response of `commentThreads().list`: the top-level comments of
the page and the optional `nextPageToken`.  The token type is opaque to
the paginator, hence the parameter `σ`. -/
structure PageResp (σ : Type) where
  items : List Comment
  nextPageToken : Option σ

/-- Outcome of a terminating `get_comments` run: the returned list, the
number of `commentThreads().list` calls issued, and whether the run
ended inside the `except HttpError` handler. -/
structure FetchOutcome where
  comments : List Comment
  apiCalls : Nat
  errored : Bool
deriving DecidableEq

/-- Loop body of `get_comments`.  State: accumulated `comments`, the
`comment_count` counter (a Python int, so modelled by `ℤ`), and the
current page token.  The except handler of the source returns `[]`,
discarding the accumulator.  `none` is fuel exhaustion only. -/
def getCommentsGo {σ : Type} (api : Option σ → Int → Except Unit (PageResp σ))
    (maxComments : Int) :
    Nat → List Comment → Int → Option σ → Option FetchOutcome
  | fuel, comments, count, tok =>
    if count < maxComments then
      match fuel with
      | 0 => none
      | fuel' + 1 =>
        match api tok (min 100 (maxComments - count)) with
        | .error _ => some ⟨[], 1, true⟩
        | .ok page =>
          let comments' := comments ++ page.items
          let count' := count + page.items.length
          match page.nextPageToken with
          | none => some ⟨comments', 1, false⟩
          | some t =>
            if maxComments ≤ count' then some ⟨comments', 1, false⟩
            else
              match getCommentsGo api maxComments fuel' comments' count' (some t) with
              | none => none
              | some r => some ⟨r.comments, r.apiCalls + 1, r.errored⟩
    else some ⟨comments, 0, false⟩

/-- Embedding of `get_comments(video_id, max_comments)`. -/
def get_comments {σ : Type} (api : String → Option σ → Int → Except Unit (PageResp σ))
    (videoId : String) (maxComments : Int) (fuel : Nat) : Option FetchOutcome :=
  getCommentsGo (api videoId) maxComments fuel [] 0 none

/-- API oracle of a video whose top-level comments are exactly `all`:
pages are served honestly from the list, the token is the next start
index, and no transport failure ever occurs. -/
def pagesApi (all : List Comment) : String → Option Nat → Int → Except Unit (PageResp Nat) :=
  fun _ tok req =>
    let start := tok.getD 0
    let its := (all.drop start).take req.toNat
    .ok ⟨its, if start + its.length < all.length then some (start + its.length) else none⟩

/-- API oracle with one honest first page followed by a transport
failure on every continuation page. -/
def failSecondApi (c : Comment) : String → Option Nat → Int → Except Unit (PageResp Nat) :=
  fun _ tok _ =>
    match tok with
    | none => .ok ⟨[c], some 1⟩
    | some _ => .error ()

/-- An API that honours the requested page size. -/
def BoundedApi {σ : Type} (api : String → Option σ → Int → Except Unit (PageResp σ)) : Prop :=
  ∀ vid tok req page, api vid tok req = .ok page → page.items.length ≤ req.toNat

/-! ### Metadata Fetcher and Report Compiler -/

/-- Embedding of `get_video_details`: one `videos().list` lookup; an
empty item list and an `HttpError` both yield `None`. -/
def get_video_details (videosList : String → Except Unit (List VideoDetails))
    (videoId : String) : Option VideoDetails :=
  match videosList videoId with
  | .error _ => none
  | .ok [] => none
  | .ok (v :: _) => some v

/-- Order used on comments by `sort_values('like_count',
ascending=False)`.  The pandas sort (numpy quicksort) does not specify
the relative order of equal keys; this embedding fixes a stable order so
that the report value is well defined, and no claim is settled through
the order of tied entries. -/
def byLikesDesc (a b : Comment) : Prop := b.like_count ≤ a.like_count

instance : DecidableRel byLikesDesc := fun a b => inferInstanceAs (Decidable (b.like_count ≤ a.like_count))

/-- Top five comments by like count, model of
`df.sort_values('like_count', ascending=False).head(5)`. -/
def topFiveComments (cs : List Comment) : List Comment :=
  (cs.insertionSort byLikesDesc).take 5

/-- Sentiment labels of the annotated comments, model of the
`df['sentiment']` column. -/
def sentimentColumn (cs : List Comment) : List String :=
  cs.map fun c => c.sentiment.getD ""

/-- Model of `value_counts()`: counts per label, larger counts first. -/
def valueCounts (labels : List String) : List (String × Nat) :=
  (countOcc labels).insertionSort byCountDesc

/-- Mean of a list of rationals, model of `Series.mean` on a non-empty
column. -/
def meanRat (xs : List Rat) : Rat := xs.sum / xs.length

/-- The compiled result record of `generate_report`. -/
structure Report where
  video_details : VideoDetails
  total_analyzed : Nat
  sentiment_distribution : List (String × Nat)
  avg_polarity : Rat
  avg_subjectivity : Rat
  common_words : List (String × Nat)
  top_comments : List Comment
  all_comments : List Comment
deriving DecidableEq

/-- Value returned by `generate_report`: the error dict with its
message, or the results dict. -/
inductive ReportResult where
  | error (msg : String)
  | ok (r : Report)
deriving DecidableEq

/-- The `results` record built at the end of `generate_report`. -/
def compileReport (details : VideoDetails) (anns : List Comment)
    (words : List (String × Nat)) : Report :=
  { video_details := details
    total_analyzed := anns.length
    sentiment_distribution := valueCounts (sentimentColumn anns)
    avg_polarity := meanRat (anns.map fun c => c.polarity.getD 0)
    avg_subjectivity := meanRat (anns.map fun c => c.subjectivity.getD 0)
    common_words := words
    top_comments := topFiveComments anns
    all_comments := anns }

/-- Embedding of `generate_report(url, max_comments)`.  `none` covers
the two unreachable-in-practice non-returns of the model: fuel
exhaustion of the paginator and an uncaught `KeyError` from a comment
without `text`. -/
def generate_report {σ : Type} (videosList : String → Except Unit (List VideoDetails))
    (api : String → Option σ → Int → Except Unit (PageResp σ))
    (scorer : String → Rat × Rat)
    (url : String) (maxComments : Int) (fuel : Nat) : Option ReportResult :=
  match extract_video_id url with
  | none => some (.error "Invalid YouTube URL")
  | some vid =>
    match get_video_details videosList vid with
    | none => some (.error "Could not retrieve video details")
    | some details =>
      match get_comments api vid maxComments fuel with
      | none => none
      | some outcome =>
        if outcome.comments.isEmpty then
          some (.error "No comments found or comments are disabled")
        else
          match analyze_sentiment scorer outcome.comments with
          | none => none
          | some anns =>
            match extract_common_words anns 4 100 defaultStopwords with
            | none => none
            | some words => some (.ok (compileReport details anns words))

/-! ### Concrete fixtures used by witnesses and counterexamples -/

/-- Scorer assigning polarity and subjectivity zero to every text. -/
def scorer0 : String → Rat × Rat := fun _ => (0, 0)

/-- Scorer assigning polarity one to every text. -/
def scorerOne : String → Rat × Rat := fun _ => (1, 0)

/-- A plain fetched comment. -/
def exComment : Comment := ⟨"alice", some "t", "2020", 1, 0, none, none, none⟩

/-- A second fetched comment. -/
def exComment2 : Comment := ⟨"bob", some "u", "2021", 2, 0, none, none, none⟩

/-- A comment dict without a `text` key. -/
def noTextComment : Comment := ⟨"carol", none, "2022", 0, 0, none, none, none⟩

/-- A comment with an empty `text`. -/
def emptyTextComment : Comment := ⟨"dave", some "", "2023", 0, 0, none, none, none⟩

/-- A metadata record. -/
def exDetails : VideoDetails := ⟨"title", "chan", "2020", 10, 1, 2, "PT1M"⟩

/-- Metadata oracle that always fails. -/
def vdNone : String → Except Unit (List VideoDetails) := fun _ => .error ()

/-- Metadata oracle that always answers with `exDetails`. -/
def vdSome : String → Except Unit (List VideoDetails) := fun _ => .ok [exDetails]

/-- Comment api oracle that always fails. -/
def apiNone : String → Option Nat → Int → Except Unit (PageResp Nat) := fun _ _ _ => .error ()

/-! ### Helper lemmas for the paginator -/

/-- Unfolding of the paginator loop at fuel zero. -/
theorem getCommentsGo_zero {σ : Type} (api : Option σ → Int → Except Unit (PageResp σ))
    (maxComments : Int) (comments : List Comment) (count : Int) (tok : Option σ) :
    getCommentsGo api maxComments 0 comments count tok =
      if count < maxComments then none else some ⟨comments, 0, false⟩ := by
  rw [getCommentsGo.eq_def]

/-- Unfolding of the paginator loop at positive fuel. -/
theorem getCommentsGo_succ {σ : Type} (api : Option σ → Int → Except Unit (PageResp σ))
    (maxComments : Int) (fuel : Nat) (comments : List Comment) (count : Int)
    (tok : Option σ) :
    getCommentsGo api maxComments (fuel + 1) comments count tok =
      if count < maxComments then
        match api tok (min 100 (maxComments - count)) with
        | .error _ => some ⟨[], 1, true⟩
        | .ok page =>
          match page.nextPageToken with
          | none => some ⟨comments ++ page.items, 1, false⟩
          | some t =>
            if maxComments ≤ count + page.items.length then
              some ⟨comments ++ page.items, 1, false⟩
            else
              match getCommentsGo api maxComments fuel (comments ++ page.items)
                  (count + page.items.length) (some t) with
              | none => none
              | some r => some ⟨r.comments, r.apiCalls + 1, r.errored⟩
      else some ⟨comments, 0, false⟩ := by
  rw [getCommentsGo.eq_def]

/-- Any terminating run that ends in the error handler returns the
empty list: the accumulated comments are discarded. -/
theorem go_errored_empty {σ : Type} (api : Option σ → Int → Except Unit (PageResp σ))
    (maxComments : Int) :
    ∀ (fuel : Nat) (comments : List Comment) (count : Int) (tok : Option σ)
      (r : FetchOutcome),
      getCommentsGo api maxComments fuel comments count tok = some r →
      r.errored = true → r.comments = [] := by
  intro fuel
  induction fuel with
  | zero =>
    intro comments count tok r h he
    rw [getCommentsGo_zero] at h
    split at h
    · exact absurd h (by simp)
    · cases h
      simp at he
  | succ fuel ih =>
    intro comments count tok r h he
    rw [getCommentsGo_succ] at h
    split at h
    · split at h
      · cases h
        rfl
      · split at h
        · cases h
          simp at he
        · split at h
          · cases h
            simp at he
          · split at h
            · exact absurd h (by simp)
            · rename_i r' hrec
              cases h
              have hr := ih _ _ _ _ hrec (by simpa using he)
              simpa using hr
    · cases h
      simp at he

/-! ### Claim theorems: paginator error handling and trivial budget -/

/-- C1 counterexample: with an honest first page holding one comment and
a transport failure on the second page, `get_comments` returns the empty
sequence, not the accumulated partial result `[exComment]` required by
the claim. -/
theorem get_comments_error_counterexample :
    get_comments (failSecondApi exComment) "vid" 5 10 = some ⟨[], 2, true⟩ ∧
    ([] : List Comment) ≠ [exComment] := by
  exact ⟨by decide, by decide⟩

/-- C1 (amended): a transport failure at ANY page, first or later, makes
`get_comments` return the empty sequence; accumulated pages are
discarded. -/
theorem get_comments_error_discards {σ : Type}
    (api : String → Option σ → Int → Except Unit (PageResp σ))
    (vid : String) (maxComments : Int) (fuel : Nat) (r : FetchOutcome)
    (h : get_comments api vid maxComments fuel = some r)
    (he : r.errored = true) : r.comments = [] :=
  go_errored_empty (api vid) maxComments fuel [] 0 none r h he

/-- Witness for `get_comments_error_discards` at the two-page failing
oracle. -/
theorem get_comments_error_discards_witness :
    (FetchOutcome.mk [] 2 true).comments = [] :=
  get_comments_error_discards (failSecondApi exComment) "vid" 5 10 ⟨[], 2, true⟩
    (by decide) rfl

/-- C10: a non-positive `max_comments` budget never enters the loop:
the result is empty, no API call is issued, and no error occurs, for
every oracle and every fuel. -/
theorem get_comments_nonpositive_max {σ : Type}
    (api : String → Option σ → Int → Except Unit (PageResp σ))
    (vid : String) (maxComments : Int) (fuel : Nat) (h : maxComments ≤ 0) :
    get_comments api vid maxComments fuel = some ⟨[], 0, false⟩ := by
  unfold get_comments
  cases fuel with
  | zero => rw [getCommentsGo_zero, if_neg (by omega)]
  | succ fuel => rw [getCommentsGo_succ, if_neg (by omega)]

/-- Witness for `get_comments_nonpositive_max` at budget `-3`. -/
theorem get_comments_nonpositive_max_witness :
    get_comments apiNone "vid" (-3) 7 = some ⟨[], 0, false⟩ :=
  get_comments_nonpositive_max apiNone "vid" (-3) 7 (by decide)

/-! ### Claim theorems: sentiment annotator -/

/-- C3: every annotated comment carries `sentimentLabel` of its stored
polarity, and the label function realises exactly the thresholds of the
claim, including both boundary values. -/
theorem analyze_sentiment_label_spec :
    (∀ (scorer : String → Rat × Rat) (cs res : List Comment),
       analyze_sentiment scorer cs = some res →
       ∀ c ∈ res, ∃ p, c.polarity = some p ∧ c.sentiment = some (sentimentLabel p)) ∧
    (∀ p : Rat,
       (sentimentLabel p = "positive" ↔ 1/10 < p) ∧
       (sentimentLabel p = "negative" ↔ p < -(1/10)) ∧
       (sentimentLabel p = "neutral" ↔ p ≤ 1/10 ∧ -(1/10) ≤ p)) := by
  constructor
  · intro scorer cs
    induction cs with
    | nil =>
      intro res h c hc
      cases h
      cases hc
    | cons c0 rest ih =>
      intro res h c hc
      unfold analyze_sentiment at h
      cases ha : annotateComment scorer c0 with
      | none => rw [ha] at h; exact absurd h (by simp)
      | some c0' =>
        rw [ha] at h
        cases hr : analyze_sentiment scorer rest with
        | none => rw [hr] at h; exact absurd h (by simp)
        | some rest' =>
          rw [hr] at h
          simp only at h
          cases h
          rcases List.mem_cons.mp hc with hc | hc
          · subst hc
            unfold annotateComment at ha
            cases ht : c0.text with
            | none => rw [ht] at ha; cases ha
            | some t =>
              rw [ht] at ha
              simp only at ha
              cases ha
              exact ⟨(scorer t).1, rfl, rfl⟩
          · exact ih rest' hr c hc
  · intro p
    unfold sentimentLabel
    have hlt : -(1/10 : Rat) < 1/10 := by norm_num
    split_ifs with h1 h2
    · refine ⟨⟨fun _ => h1, fun _ => rfl⟩, ?_, ?_⟩
      · constructor
        · intro hs
          exact absurd hs (by decide)
        · intro hp
          exact absurd h1 (by linarith)
      · constructor
        · intro hs
          exact absurd hs (by decide)
        · intro hp
          exact absurd h1 (by linarith [hp.1])
    · refine ⟨?_, ⟨fun _ => h2, fun _ => rfl⟩, ?_⟩
      · constructor
        · intro hs
          exact absurd hs (by decide)
        · intro hp
          exact absurd hp h1
      · constructor
        · intro hs
          exact absurd hs (by decide)
        · intro hp
          exact absurd h2 (by linarith [hp.2])
    · refine ⟨?_, ?_, fun _ => ⟨le_of_not_lt h1, le_of_not_lt h2⟩, fun _ => rfl⟩
      · constructor
        · intro hs
          exact absurd hs (by decide)
        · intro hp
          exact absurd hp h1
      · constructor
        · intro hs
          exact absurd hs (by decide)
        · intro hp
          exact absurd hp h2

/-- The comment obtained by annotating `exComment` with the constant
polarity-one scorer. -/
def exAnnotated : Comment :=
  { exComment with
    polarity := some 1
    subjectivity := some 0
    sentiment := some (sentimentLabel 1) }

/-- Witness for `analyze_sentiment_label_spec` on a one-comment run of
the constant polarity-one scorer, and the label iffs at `p = 1`. -/
theorem analyze_sentiment_label_spec_witness :
    (∀ c ∈ [exAnnotated], ∃ p, c.polarity = some p ∧ c.sentiment = some (sentimentLabel p)) ∧
    (sentimentLabel 1 = "positive" ↔ 1/10 < (1 : Rat)) :=
  ⟨analyze_sentiment_label_spec.1 scorerOne [exComment] [exAnnotated] rfl,
   (analyze_sentiment_label_spec.2 1).1⟩

/-- C9: the annotator keeps length and order, never changes the five
fetched fields, and always populates all three annotation fields. -/
theorem analyze_sentiment_frame (scorer : String → Rat × Rat) :
    ∀ (cs res : List Comment), analyze_sentiment scorer cs = some res →
      res.length = cs.length ∧
      List.Forall₂ (fun c c' =>
        c'.author = c.author ∧ c'.text = c.text ∧ c'.published_at = c.published_at ∧
        c'.like_count = c.like_count ∧ c'.reply_count = c.reply_count ∧
        c'.polarity.isSome = true ∧ c'.subjectivity.isSome = true ∧
        c'.sentiment.isSome = true) cs res := by
  intro cs
  induction cs with
  | nil =>
    intro res h
    cases h
    exact ⟨rfl, List.Forall₂.nil⟩
  | cons c0 rest ih =>
    intro res h
    unfold analyze_sentiment at h
    cases ha : annotateComment scorer c0 with
    | none => rw [ha] at h; exact absurd h (by simp)
    | some c0' =>
      rw [ha] at h
      cases hr : analyze_sentiment scorer rest with
      | none => rw [hr] at h; exact absurd h (by simp)
      | some rest' =>
        rw [hr] at h
        simp only at h
        cases h
        obtain ⟨hlen, hall⟩ := ih rest' hr
        refine ⟨by simpa using hlen, List.Forall₂.cons ?_ hall⟩
        unfold annotateComment at ha
        cases ht : c0.text with
        | none => rw [ht] at ha; cases ha
        | some t =>
          rw [ht] at ha
          simp only at ha
          cases ha
          simp [ht]

/-- Witness for `analyze_sentiment_frame` on the one-comment run. -/
theorem analyze_sentiment_frame_witness :
    ([exAnnotated] : List Comment).length = [exComment].length :=
  (analyze_sentiment_frame scorerOne [exComment] [exAnnotated] rfl).1

/-! ### Claim theorems: totality of annotation and aggregation -/

/-- C8 counterexample: on a comment without a `text` field both the
annotator and the aggregator raise (`KeyError`), returning no value at
all; in particular no neutral annotation is produced. -/
theorem annotate_missing_text_counterexample :
    analyze_sentiment scorer0 [noTextComment] = none ∧
    extract_common_words [noTextComment] 4 100 defaultStopwords = none ∧
    ∀ res : List Comment, analyze_sentiment scorer0 [noTextComment] ≠ some res := by
  refine ⟨rfl, rfl, ?_⟩
  intro res h
  exact absurd h (by simp [analyze_sentiment, annotateComment, noTextComment])

/-- C8 (amended): when every comment has a `text` field the annotator
and the aggregator always return a value; a comment with an EMPTY text
gets the neutral label (the scorer returning polarity zero on the empty
string, as TextBlob does) and contributes zero tokens. -/
theorem annotator_aggregator_total_amended :
    (∀ (scorer : String → Rat × Rat) (cs : List Comment),
       (∀ c ∈ cs, c.text.isSome = true) →
       (analyze_sentiment scorer cs).isSome = true ∧
       (∀ minLen maxWords stops,
          (extract_common_words cs minLen maxWords stops).isSome = true)) ∧
    (∀ (scorer : String → Rat × Rat) (c : Comment),
       c.text = some "" → (scorer "").1 = 0 →
       annotateComment scorer c = some { c with
         polarity := some (scorer "").1
         subjectivity := some (scorer "").2
         sentiment := some "neutral" } ∧
       ∀ minLen stops, commentTokens minLen stops c = some []) := by
  constructor
  · intro scorer cs hall
    constructor
    · induction cs with
      | nil => rfl
      | cons c0 rest ih =>
        have h0 : c0.text.isSome = true := hall c0 (List.mem_cons_self c0 _)
        unfold analyze_sentiment
        cases ht : c0.text with
        | none => rw [ht] at h0; cases h0
        | some t =>
          have hrest := ih fun c hc => hall c (List.mem_cons_of_mem _ hc)
          cases hr : analyze_sentiment scorer rest with
          | none => rw [hr] at hrest; cases hrest
          | some rest' => simp [annotateComment, ht, hr]
    · intro minLen maxWords stops
      unfold extract_common_words
      have : (allTokens minLen stops cs).isSome = true := by
        induction cs with
        | nil => rfl
        | cons c0 rest ih =>
          have h0 : c0.text.isSome = true := hall c0 (List.mem_cons_self c0 _)
          unfold allTokens
          cases ht : c0.text with
          | none => rw [ht] at h0; cases h0
          | some t =>
            have hrest := ih fun c hc => hall c (List.mem_cons_of_mem _ hc)
            cases hr : allTokens minLen stops rest with
            | none => rw [hr] at hrest; cases hrest
            | some rest' => simp [commentTokens, ht, hr]
      cases hx : allTokens minLen stops cs with
      | none => rw [hx] at this; cases this
      | some ws => simp [hx]
  · intro scorer c ht hp
    constructor
    · unfold annotateComment
      rw [ht]
      have : sentimentLabel (scorer "").1 = "neutral" := by
        rw [hp]
        norm_num [sentimentLabel]
      simp only [this]
    · intro minLen stops
      unfold commentTokens
      rw [ht]
      rfl

/-- Witness for `annotator_aggregator_total_amended`: the totality part
on a singleton list with text present, and the empty-text part on
`emptyTextComment` with the zero scorer. -/
theorem annotator_aggregator_total_amended_witness :
    ((analyze_sentiment scorer0 [emptyTextComment]).isSome = true) ∧
    (annotateComment scorer0 emptyTextComment = some { emptyTextComment with
       polarity := some (scorer0 "").1
       subjectivity := some (scorer0 "").2
       sentiment := some "neutral" } ∧
     ∀ minLen stops, commentTokens minLen stops emptyTextComment = some []) :=
  ⟨(annotator_aggregator_total_amended.1 scorer0 [emptyTextComment] (by decide)).1,
   annotator_aggregator_total_amended.2 scorer0 emptyTextComment rfl rfl⟩

/-! ### Helper lemmas for the video resolver -/

/-- A prefix of length `n` inside the `takeWhile` region: the region is
at least `n` long exactly when the first `n` characters exist and all
satisfy the predicate. -/
theorem le_takeWhile_length_iff (p : Char → Bool) :
    ∀ (l : List Char) (n : Nat),
      n ≤ (l.takeWhile p).length ↔ n ≤ l.length ∧ (l.take n).all p = true := by
  intro l
  induction l with
  | nil =>
    intro n
    simp
  | cons c rest ih =>
    intro n
    cases n with
    | zero => simp
    | succ m =>
      cases hp : p c with
      | true =>
        have hih := ih m
        simp only [List.takeWhile_cons, hp, if_true, List.length_cons, Nat.succ_le_succ_iff,
          List.take_succ_cons, List.all_cons, Bool.and_eq_true, true_and]
        tauto
      | false =>
        simp [List.takeWhile_cons, hp]

/-- The token rule of the code equals the amended token rule. -/
theorem idRunAt_eq_atLeastRun11 (cs : List Char) : idRunAt cs = atLeastRun11 cs := by
  unfold idRunAt atLeastRun11
  by_cases hc : 11 ≤ (cs.takeWhile isIdChar).length
  · rw [if_pos ((le_takeWhile_length_iff isIdChar cs 11).mp hc), if_pos hc]
  · rw [if_neg (fun hx => hc ((le_takeWhile_length_iff isIdChar cs 11).mpr hx)), if_neg hc]

/-- The position matcher of the code equals the amended position
matcher. -/
theorem matchVideoId_eq_amended (cs : List Char) :
    matchWith idRunAt cs = amendedMatchVideoId cs := by
  unfold amendedMatchVideoId
  match cs with
  | [] => rfl
  | [c] => simp only [matchWith, idRunAt_eq_atLeastRun11]
  | c :: d :: rest => simp only [matchWith, idRunAt_eq_atLeastRun11]

/-- Success of the scan is success of the attempt at the least viable
position (the attempt at the empty suffix never succeeds for a rule
that rejects the empty list; both rules here do). -/
theorem searchWith_some_iff (f : List Char → Option (List Char))
    (hf : matchWith f [] = none) :
    ∀ (cs : List Char) (t : List Char),
      searchWith f cs = some t ↔
        ∃ i, matchWith f (cs.drop i) = some t ∧
             ∀ j < i, matchWith f (cs.drop j) = none := by
  intro cs
  induction cs with
  | nil =>
    intro t
    constructor
    · intro h
      cases h
    · rintro ⟨i, hi, -⟩
      rw [List.drop_nil] at hi
      rw [hf] at hi
      cases hi
  | cons c rest ih =>
    intro t
    unfold searchWith
    cases hm : matchWith f (c :: rest) with
    | some u =>
      simp only [Option.some_inj]
      constructor
      · intro h
        subst h
        exact ⟨0, hm, by omega⟩
      · rintro ⟨i, hi, hmin⟩
        cases i with
        | zero =>
          rw [List.drop_zero] at hi
          rw [hm] at hi
          exact Option.some_inj.mp hi
        | succ k =>
          have h0 := hmin 0 (Nat.succ_pos k)
          rw [List.drop_zero] at h0
          rw [hm] at h0
          cases h0
    | none =>
      rw [ih t]
      constructor
      · rintro ⟨i, hi, hmin⟩
        refine ⟨i + 1, by simpa using hi, ?_⟩
        intro j hj
        cases j with
        | zero => simpa using hm
        | succ k =>
          have := hmin k (by omega)
          simpa using this
      · rintro ⟨i, hi, hmin⟩
        cases i with
        | zero =>
          rw [List.drop_zero, hm] at hi
          cases hi
        | succ k =>
          refine ⟨k, by simpa using hi, ?_⟩
          intro j hj
          have := hmin (j + 1) (by omega)
          simpa using this

/-- Failure of the scan is failure of the attempt at every position. -/
theorem searchWith_none_iff (f : List Char → Option (List Char))
    (hf : matchWith f [] = none) :
    ∀ cs : List Char,
      searchWith f cs = none ↔ ∀ i, matchWith f (cs.drop i) = none := by
  intro cs
  induction cs with
  | nil =>
    simp only [List.drop_nil]
    constructor
    · intro _ _
      exact hf
    · intro _
      rfl
  | cons c rest ih =>
    unfold searchWith
    cases hm : matchWith f (c :: rest) with
    | some u =>
      constructor
      · intro h
        cases h
      · intro h
        have := h 0
        rw [List.drop_zero, hm] at this
        cases this
    | none =>
      rw [ih]
      constructor
      · intro h j
        cases j with
        | zero => simpa using hm
        | succ k => simpa using h k
      · intro h i
        have := h (i + 1)
        simpa using this

/-! ### Claim theorems: video resolver -/

/-- C7 counterexample: after the single `/` of `"/abcdefghijkl"` stand
twelve id-class characters, so no run of EXACTLY eleven exists and the
claim demands the not-found signal; the code still returns the first
eleven characters. -/
theorem extract_video_id_counterexample :
    extract_video_id "/abcdefghijkl" = some "abcdefghijk" ∧
    resolverSpec "/abcdefghijkl" = none ∧
    some "abcdefghijk" ≠ (none : Option String) := by
  exact ⟨by decide, by decide, by decide⟩

/-- C7 (amended): `extract_video_id` succeeds exactly at the least
position whose suffix starts with a `v=` or `/` marker followed by AT
LEAST eleven id-class characters, and then returns the first eleven of
them; it returns `None` exactly when no position matches. -/
theorem extract_video_id_amended (url : String) :
    (∀ t : String, extract_video_id url = some t ↔
       ∃ i, amendedMatchVideoId (url.data.drop i) = some t.data ∧
            ∀ j < i, amendedMatchVideoId (url.data.drop j) = none) ∧
    (extract_video_id url = none ↔
       ∀ i, amendedMatchVideoId (url.data.drop i) = none) := by
  have hmv : ∀ ds, matchWith idRunAt ds = amendedMatchVideoId ds := matchVideoId_eq_amended
  have hf : matchWith idRunAt [] = none := rfl
  constructor
  · intro t
    unfold extract_video_id
    cases hs : searchWith idRunAt url.data with
    | none =>
      simp only [Option.map_none']
      constructor
      · intro h
        cases h
      · rintro ⟨i, hi, -⟩
        rw [searchWith_none_iff idRunAt hf] at hs
        rw [← hmv] at hi
        rw [hs i] at hi
        cases hi
    | some l =>
      simp only [Option.map_some']
      rw [searchWith_some_iff idRunAt hf] at hs
      obtain ⟨i, hi, hmin⟩ := hs
      constructor
      · intro h
        have hl : t = (⟨l⟩ : String) := (Option.some_inj.mp h).symm
        subst hl
        exact ⟨i, by rw [← hmv]; exact hi, fun j hj => by rw [← hmv]; exact hmin j hj⟩
      · rintro ⟨i', hi', hmin'⟩
        rw [← hmv] at hi'
        rcases Nat.lt_trichotomy i i' with hlt | heq | hgt
        · have hx := hmin' i hlt
          rw [← hmv] at hx
          rw [hx] at hi
          cases hi
        · subst heq
          rw [hi] at hi'
          have : l = t.data := Option.some_inj.mp hi'
          cases t with
          | mk data => simp_all
        · rw [hmin i' hgt] at hi'
          cases hi'
  · unfold extract_video_id
    cases hs : searchWith idRunAt url.data with
    | none =>
      simp only [Option.map_none']
      rw [searchWith_none_iff idRunAt hf] at hs
      constructor
      · intro _ i
        rw [← hmv]
        exact hs i
      · intro _
        trivial
    | some l =>
      simp only [Option.map_some']
      rw [searchWith_some_iff idRunAt hf] at hs
      obtain ⟨i, hi, -⟩ := hs
      constructor
      · intro h
        cases h
      · intro h
        have := h i
        rw [← hmv] at this
        rw [this] at hi
        cases hi

/-- Witness for `extract_video_id_amended` on a standard watch URL. -/
theorem extract_video_id_amended_witness :
    extract_video_id "watch?v=dQw4w9WgXcQ" = some "dQw4w9WgXcQ" :=
  ((extract_video_id_amended "watch?v=dQw4w9WgXcQ").1 "dQw4w9WgXcQ").mpr
    ⟨6, by decide, by decide⟩

/-! ### Claim theorems: report compiler -/

/-- C2: every value returned by `generate_report` is the ok record or
exactly one of the three error messages, under mutually exclusive
conditions evaluated in order: URL resolution first, then the metadata
fetch, and the no-comments error only after metadata succeeded; and the
three message strings are pairwise distinct. -/
theorem generate_report_cases {σ : Type}
    (videosList : String → Except Unit (List VideoDetails))
    (api : String → Option σ → Int → Except Unit (PageResp σ))
    (scorer : String → Rat × Rat) (url : String) (maxComments : Int) (fuel : Nat)
    (r : ReportResult)
    (h : generate_report videosList api scorer url maxComments fuel = some r) :
    ((extract_video_id url = none ∧ r = .error "Invalid YouTube URL") ∨
     (∃ vid, extract_video_id url = some vid ∧
        get_video_details videosList vid = none ∧
        r = .error "Could not retrieve video details") ∨
     (∃ vid details out, extract_video_id url = some vid ∧
        get_video_details videosList vid = some details ∧
        get_comments api vid maxComments fuel = some out ∧ out.comments = [] ∧
        r = .error "No comments found or comments are disabled") ∨
     (∃ vid details out anns words, extract_video_id url = some vid ∧
        get_video_details videosList vid = some details ∧
        get_comments api vid maxComments fuel = some out ∧ out.comments ≠ [] ∧
        analyze_sentiment scorer out.comments = some anns ∧
        extract_common_words anns 4 100 defaultStopwords = some words ∧
        r = .ok (compileReport details anns words))) ∧
    ("Invalid YouTube URL" ≠ "Could not retrieve video details" ∧
     "Invalid YouTube URL" ≠ "No comments found or comments are disabled" ∧
     "Could not retrieve video details" ≠ "No comments found or comments are disabled") := by
  refine ⟨?_, by decide, by decide, by decide⟩
  unfold generate_report at h
  split at h
  · rename_i hvid
    cases h
    exact Or.inl ⟨hvid, rfl⟩
  · rename_i vid hvid
    split at h
    · rename_i hdet
      cases h
      exact Or.inr (Or.inl ⟨vid, hvid, hdet, rfl⟩)
    · rename_i details hdet
      split at h
      · exact absurd h (by simp)
      · rename_i out hout
        split at h
        · rename_i hemp
          cases h
          exact Or.inr (Or.inr (Or.inl
            ⟨vid, details, out, hvid, hdet, hout, List.isEmpty_iff.mp hemp, rfl⟩))
        · rename_i hemp
          split at h
          · exact absurd h (by simp)
          · rename_i anns hann
            split at h
            · exact absurd h (by simp)
            · rename_i words hw
              cases h
              refine Or.inr (Or.inr (Or.inr
                ⟨vid, details, out, anns, words, hvid, hdet, hout, ?_, hann, hw, rfl⟩))
              intro hc
              exact hemp (by simp [hc])

/-- Witness for `generate_report_cases`: an unparseable URL ends in the
first disjunct with the invalid-URL message. -/
theorem generate_report_cases_witness :
    extract_video_id "x" = none ∧
    (ReportResult.error "Invalid YouTube URL") = .error "Invalid YouTube URL" := by
  rcases (generate_report_cases vdNone apiNone scorer0 "x" 5 1
      (.error "Invalid YouTube URL") rfl).1 with h | h | h | h
  · exact h
  · obtain ⟨vid, hvid, -⟩ := h
    rw [show extract_video_id "x" = none from by decide] at hvid
    cases hvid
  · obtain ⟨vid, -, -, hvid, -⟩ := h
    rw [show extract_video_id "x" = none from by decide] at hvid
    cases hvid
  · obtain ⟨vid, -, -, -, -, hvid, -⟩ := h
    rw [show extract_video_id "x" = none from by decide] at hvid
    cases hvid

/-! ### Helper lemmas: paginator length bounds -/

/-- When the API honours the requested page size, every terminating run
whose accumulator already respects the budget returns at most
`maxComments.toNat` comments. -/
theorem go_length_bounded {σ : Type} (api : Option σ → Int → Except Unit (PageResp σ))
    (maxComments : Int)
    (hb : ∀ tok req page, api tok req = .ok page → page.items.length ≤ req.toNat) :
    ∀ (fuel : Nat) (comments : List Comment) (count : Int) (tok : Option σ)
      (r : FetchOutcome),
      getCommentsGo api maxComments fuel comments count tok = some r →
      count = (comments.length : Int) →
      comments.length ≤ maxComments.toNat →
      r.comments.length ≤ maxComments.toNat := by
  intro fuel
  induction fuel with
  | zero =>
    intro comments count tok r h hc hlen
    rw [getCommentsGo_zero] at h
    split at h
    · exact absurd h (by simp)
    · cases h
      simpa using hlen
  | succ fuel ih =>
    intro comments count tok r h hc hlen
    rw [getCommentsGo_succ] at h
    split at h
    · rename_i hlt
      split at h
      · cases h
        simp
      · rename_i page hapi
        have hpage := hb _ _ _ hapi
        have hfit : comments.length + page.items.length ≤ maxComments.toNat := by
          omega
        split at h
        · cases h
          simpa [List.length_append] using hfit
        · split at h
          · cases h
            simpa [List.length_append] using hfit
          · rename_i hle
            split at h
            · exact absurd h (by simp)
            · rename_i r' hrec
              cases h
              have hc' : count + (page.items.length : Int) =
                  ((comments ++ page.items).length : Int) := by
                simp only [List.length_append]
                push_cast
                omega
              have hlen' : (comments ++ page.items).length ≤ maxComments.toNat := by
                simpa [List.length_append] using hfit
              simpa using ih _ _ _ _ hrec hc' hlen'
    · cases h
      simpa using hlen

/-- The honest pages oracle honours the requested page size. -/
theorem pagesApi_bounded (all : List Comment) : BoundedApi (pagesApi all) := by
  intro vid tok req page h
  unfold pagesApi at h
  cases h
  simp only [List.length_take]
  omega

/-- The always-failing oracle trivially honours the page size. -/
theorem apiNone_bounded : BoundedApi apiNone := by
  intro vid tok req page h
  cases h

/-- A full honest run over the video `all`: starting at position `c`
with the matching accumulator, the paginator finishes with exactly the
first `maxComments.toNat` comments and no error. -/
theorem pagesApi_run (all : List Comment) (vid : String) (N : Int) (hN : 0 < N) :
    ∀ (fuel c : Nat) (tok : Option Nat),
      c ≤ all.length → (c : Int) ≤ N → N.toNat - c ≤ fuel →
      ((tok = none ∧ c = 0) ∨ (tok = some c ∧ c < all.length)) →
      ∃ k, getCommentsGo (pagesApi all vid) N fuel (all.take c) c tok =
        some ⟨all.take N.toNat, k, false⟩ := by
  intro fuel
  induction fuel with
  | zero =>
    intro c tok hclen hcN hfuel htok
    have hceq : (c : Int) = N := by omega
    refine ⟨0, ?_⟩
    rw [getCommentsGo_zero, if_neg (by omega)]
    have : c = N.toNat := by omega
    rw [this]
  | succ fuel ih =>
    intro c tok hclen hcN hfuel htok
    by_cases hcltN : (c : Int) < N
    · have hstart : tok.getD 0 = c := by
        rcases htok with ⟨h1, h2⟩ | ⟨h1, h2⟩
        · rw [h1, h2]; rfl
        · rw [h1]; rfl
      obtain ⟨m, hm⟩ : ∃ m, (min 100 (N - (c : Int))).toNat = m := ⟨_, rfl⟩
      obtain ⟨its, hits⟩ : ∃ its, (all.drop c).take m = its := ⟨_, rfl⟩
      have hapi : pagesApi all vid tok (min 100 (N - (c : Int))) =
          .ok ⟨its, if c + its.length < all.length
                    then some (c + its.length) else none⟩ := by
        unfold pagesApi
        rw [hstart, hm]
        simp only [hits]
      have hitslen : its.length = min m (all.length - c) := by
        rw [← hits]
        simp [List.length_take, List.length_drop]
      have hm1 : 1 ≤ m := by omega
      have hmN : (c : Int) + (m : Int) ≤ N := by omega
      have happend : all.take c ++ its = all.take (c + m) := by
        rw [← hits, List.take_add]
      rw [getCommentsGo_succ, if_pos hcltN, hapi]
      simp only
      by_cases hnext : c + its.length < all.length
      · rw [if_pos hnext]
        have hitsm : its.length = m := by omega
        rw [hitsm]
        simp only
        by_cases hstop : N ≤ (c : Int) + (m : Int)
        · rw [if_pos hstop]
          refine ⟨1, ?_⟩
          rw [happend, show c + m = N.toNat from by omega]
        · rw [if_neg hstop]
          obtain ⟨k, hk⟩ := ih (c + m) (some (c + m))
            (by omega) (by push_cast; omega) (by omega) (Or.inr ⟨rfl, by omega⟩)
          rw [happend, show (c : Int) + (m : Int) = ((c + m : Nat) : Int) from
            (Nat.cast_add c m).symm]
          rw [hk]
          exact ⟨k + 1, rfl⟩
      · rw [if_neg hnext]
        simp only
        refine ⟨1, ?_⟩
        rw [happend]
        have h1 : all.length ≤ c + m := by omega
        have h2 : all.length ≤ N.toNat := by omega
        rw [List.take_of_length_le h1, List.take_of_length_le h2]
    · have hceq : c = N.toNat := by omega
      refine ⟨0, ?_⟩
      rw [getCommentsGo_succ, if_neg hcltN, hceq]

/-! ### Claim theorems: paginator length -/

/-- C4: under any API honouring the page size every terminating result
has at most `max_comments` comments, and on the honest oracle of a
video with comment list `all` and positive budget `N` (with fuel at
least `N`) the result is exactly the first `N` comments, so its length
is `min (available) N`. -/
theorem get_comments_length_spec :
    (∀ (σ : Type) (api : String → Option σ → Int → Except Unit (PageResp σ)),
       BoundedApi api →
       ∀ (vid : String) (N : Int) (fuel : Nat) (r : FetchOutcome),
         get_comments api vid N fuel = some r → r.comments.length ≤ N.toNat) ∧
    (∀ (all : List Comment) (vid : String) (N : Int) (fuel : Nat),
       0 < N → N.toNat ≤ fuel →
       ∃ k, get_comments (pagesApi all) vid N fuel =
           some ⟨all.take N.toNat, k, false⟩ ∧
         (all.take N.toNat).length = min all.length N.toNat) := by
  constructor
  · intro σ api hb vid N fuel r h
    have := go_length_bounded (api vid) N (fun tok req page hp => hb vid tok req page hp)
      fuel [] 0 none r h (by simp)
    simpa using this
  · intro all vid N fuel hN hfuel
    obtain ⟨k, hk⟩ := pagesApi_run all vid N hN fuel 0 none
      (by omega) (by omega) (by omega) (Or.inl ⟨rfl, rfl⟩)
    refine ⟨k, ?_, ?_⟩
    · unfold get_comments
      simpa using hk
    · rw [List.length_take]
      exact Nat.min_comm _ _

/-- Witness for `get_comments_length_spec`: the bounded part on the
always-failing oracle, and the honest part on a two-comment video with
budget one. -/
theorem get_comments_length_spec_witness :
    (([] : List Comment).length ≤ (5 : Int).toNat) ∧
    (∃ k, get_comments (pagesApi [exComment, exComment2]) "vid" 1 2 =
        some ⟨[exComment, exComment2].take (1 : Int).toNat, k, false⟩ ∧
      ([exComment, exComment2].take (1 : Int).toNat).length =
        min [exComment, exComment2].length (1 : Int).toNat) :=
  ⟨get_comments_length_spec.1 Nat apiNone apiNone_bounded "vid" 5 3 ⟨[], 1, true⟩
      (by decide),
   get_comments_length_spec.2 [exComment, exComment2] "vid" 1 2 (by decide) (by decide)⟩

/-! ### Lexical aggregator: ordering notions -/

/-- Position of the first occurrence of a token in the scanned word
stream (length of the list when absent). -/
def firstIdx : List String → String → Nat
  | [], _ => 0
  | x :: rest, w => if x = w then 0 else firstIdx rest w + 1

/-- Order of the `most_common` output: entry `a` stands before entry `b`
when its count is at least as large, and on equal counts when its token
occurs first in the scanned word stream. -/
def rankedBefore (ws : List String) (a b : String × Nat) : Prop :=
  b.2 ≤ a.2 ∧ (a.2 = b.2 → firstIdx ws a.1 < firstIdx ws b.1)

/-! ### Character-level lemmas for lowering -/

/-- Value of `Char.ofNat` at a valid code point. -/
theorem charOfNat_toNat (n : Nat) (h : Nat.isValidChar n) : (Char.ofNat n).toNat = n := by
  simp only [Char.ofNat, dif_pos h, Char.ofNatAux, Char.toNat, UInt32.toNat]
  simp

/-- Numeric reading of `Char.isLower`. -/
theorem isLower_iff (c : Char) : c.isLower = true ↔ 97 ≤ c.toNat ∧ c.toNat ≤ 122 := by
  simp only [Char.isLower, Bool.and_eq_true, decide_eq_true_eq, ge_iff_le, UInt32.le_def,
    BitVec.le_def, Char.toNat, UInt32.toNat]
  norm_num

/-- Numeric reading of `Char.isUpper`. -/
theorem isUpper_iff (c : Char) : c.isUpper = true ↔ 65 ≤ c.toNat ∧ c.toNat ≤ 90 := by
  simp only [Char.isUpper, Bool.and_eq_true, decide_eq_true_eq, ge_iff_le, UInt32.le_def,
    BitVec.le_def, Char.toNat, UInt32.toNat]
  norm_num

/-- Arithmetic form of `Char.toLower`. -/
theorem toLower_eq_ite (c : Char) :
    Char.toLower c = if c.toNat ≥ 65 ∧ c.toNat ≤ 90 then Char.ofNat (c.toNat + 32) else c := rfl

/-- A lowered character that is a letter is a lowercase letter. -/
theorem toLower_isLower (c : Char) (h : (Char.toLower c).isAlpha = true) :
    (Char.toLower c).isLower = true := by
  by_cases hc : c.toNat ≥ 65 ∧ c.toNat ≤ 90
  · have hv : Nat.isValidChar (c.toNat + 32) := Or.inl (by omega)
    rw [toLower_eq_ite, if_pos hc] at *
    rw [isLower_iff, charOfNat_toNat _ hv]
    omega
  · rw [toLower_eq_ite, if_neg hc] at *
    simp only [Char.isAlpha, Bool.or_eq_true] at h
    rcases h with h | h
    · rw [isUpper_iff] at h
      omega
    · exact h

/-! ### Lemmas about word runs and tokens -/

/-- Every character of a produced run comes from the accumulator or
from the remaining input. -/
theorem mem_wordRunsAux :
    ∀ (s acc : List Char) (r : List Char), r ∈ wordRunsAux acc s →
      ∀ c ∈ r, c ∈ acc ∨ c ∈ s := by
  intro s
  induction s with
  | nil =>
    intro acc r hr c hc
    unfold wordRunsAux at hr
    split at hr
    · cases hr
    · rcases List.mem_singleton.mp hr with rfl
      exact Or.inl (List.mem_reverse.mp hc)
  | cons d rest ih =>
    intro acc r hr c hc
    unfold wordRunsAux at hr
    by_cases hw : isWordChar d
    · rw [if_pos hw] at hr
      rcases ih (d :: acc) r hr c hc with hx | hx
      · rcases List.mem_cons.mp hx with rfl | hx
        · exact Or.inr (List.mem_cons_self _ _)
        · exact Or.inl hx
      · exact Or.inr (List.mem_cons_of_mem _ hx)
    · rw [if_neg hw] at hr
      split at hr
      · rcases ih [] r hr c hc with hx | hx
        · cases hx
        · exact Or.inr (List.mem_cons_of_mem _ hx)
      · rcases List.mem_cons.mp hr with rfl | hr
        · exact Or.inl (List.mem_reverse.mp hc)
        · rcases ih [] r hr c hc with hx | hx
          · cases hx
          · exact Or.inr (List.mem_cons_of_mem _ hx)

/-- Every token of a text is long enough, all letters, and all
lowercase. -/
theorem tokensOfText_facts (minLen : Nat) (s : String) :
    ∀ w ∈ tokensOfText minLen s,
      minLen ≤ w.length ∧ w.data.all Char.isAlpha = true ∧
        w.data.all Char.isLower = true := by
  intro w hw
  unfold tokensOfText at hw
  rcases List.mem_map.mp hw with ⟨r, hr, rfl⟩
  rcases List.mem_filter.mp hr with ⟨hrr, hcond⟩
  rw [Bool.and_eq_true] at hcond
  obtain ⟨hlen, halpha⟩ := hcond
  have hlen' : minLen ≤ r.length := of_decide_eq_true hlen
  refine ⟨hlen', halpha, ?_⟩
  rw [List.all_eq_true] at halpha ⊢
  intro c hc
  have hmem := mem_wordRunsAux (lowerChars s) [] r hrr c hc
  rcases hmem with hx | hx
  · cases hx
  · rcases List.mem_map.mp hx with ⟨d, -, rfl⟩
    exact toLower_isLower d (halpha _ hc)

/-- Every word in the accumulated stream is long enough, all lowercase
letters, and not a stop word. -/
theorem allTokens_facts (minLen : Nat) (stops : List String) :
    ∀ (cs : List Comment) (ws : List String),
      allTokens minLen stops cs = some ws →
      ∀ w ∈ ws,
        minLen ≤ w.length ∧ w.data.all Char.isAlpha = true ∧
          w.data.all Char.isLower = true ∧ w ∉ stops := by
  intro cs
  induction cs with
  | nil =>
    intro ws h w hw
    cases h
    cases hw
  | cons c0 rest ih =>
    intro ws h w hw
    unfold allTokens at h
    cases hct : commentTokens minLen stops c0 with
    | none => rw [hct] at h; exact absurd h (by simp)
    | some ts =>
      rw [hct] at h
      cases hrest : allTokens minLen stops rest with
      | none => rw [hrest] at h; exact absurd h (by simp)
      | some ws' =>
        rw [hrest] at h
        simp only at h
        cases h
        rcases List.mem_append.mp hw with hw | hw
        · unfold commentTokens at hct
          cases ht : c0.text with
          | none => rw [ht] at hct; cases hct
          | some t =>
            rw [ht] at hct
            simp only [Option.map_some'] at hct
            cases hct
            rcases List.mem_filter.mp hw with ⟨htok, hstop⟩
            obtain ⟨h1, h2, h3⟩ := tokensOfText_facts minLen t w htok
            exact ⟨h1, h2, h3, of_decide_eq_true hstop⟩
        · exact ih ws' hrest w hw

/-! ### Lemmas about the counter -/

/-- Keys of the counter come from the counted list. -/
theorem mem_countOccAux :
    ∀ (fuel : Nat) (l : List String) (p : String × Nat),
      p ∈ countOccAux fuel l → p.1 ∈ l := by
  intro fuel
  induction fuel with
  | zero =>
    intro l p hp
    cases l with
    | nil => cases hp
    | cons w rest => cases hp
  | succ fuel ih =>
    intro l p hp
    cases l with
    | nil => cases hp
    | cons w rest =>
      unfold countOccAux at hp
      rcases List.mem_cons.mp hp with rfl | hp
      · exact List.mem_cons_self _ _
      · have := ih _ p hp
        exact List.mem_cons_of_mem _ (List.mem_filter.mp this).1

/-- Relative first-occurrence order survives a filter. -/
theorem firstIdx_filter_lt (p : String → Bool) :
    ∀ (l : List String) (x y : String), x ∈ l.filter p → y ∈ l.filter p →
      firstIdx (l.filter p) x < firstIdx (l.filter p) y →
      firstIdx l x < firstIdx l y := by
  intro l
  induction l with
  | nil =>
    intro x y hx hy h
    cases hx
  | cons a rest ih =>
    intro x y hx hy h
    rw [List.filter_cons] at hx hy h
    by_cases hpa : p a
    · rw [if_pos hpa] at hx hy h
      by_cases hxa : a = x
      · subst hxa
        have hya : a ≠ y := by
          intro hya
          subst hya
          simp [firstIdx] at h
        unfold firstIdx
        rw [if_pos rfl, if_neg hya]
        omega
      · by_cases hya : a = y
        · subst hya
          unfold firstIdx at h
          rw [if_neg hxa, if_pos rfl] at h
          omega
        · unfold firstIdx at h ⊢
          rw [if_neg hxa, if_neg hya] at h ⊢
          have hx' : x ∈ rest.filter p := by
            rcases List.mem_cons.mp hx with rfl | hx
            · exact absurd rfl hxa
            · exact hx
          have hy' : y ∈ rest.filter p := by
            rcases List.mem_cons.mp hy with rfl | hy
            · exact absurd rfl hya
            · exact hy
          have := ih x y hx' hy' (by omega)
          omega
    · rw [if_neg hpa] at hx hy h
      have hxa : a ≠ x := by
        intro hxa
        subst hxa
        exact hpa (List.mem_filter.mp hx).2
      have hya : a ≠ y := by
        intro hya
        subst hya
        exact hpa (List.mem_filter.mp hy).2
      unfold firstIdx
      rw [if_neg hxa, if_neg hya]
      have := ih x y hx hy h
      omega

/-- Counter keys appear in first-occurrence order of the counted
list. -/
theorem countOccAux_pairwise :
    ∀ (fuel : Nat) (l : List String), l.length ≤ fuel →
      (countOccAux fuel l).Pairwise
        (fun a b => firstIdx l a.1 < firstIdx l b.1) := by
  intro fuel
  induction fuel with
  | zero =>
    intro l hl
    cases l with
    | nil => exact List.Pairwise.nil
    | cons w rest => simp at hl
  | succ fuel ih =>
    intro l hl
    cases l with
    | nil => exact List.Pairwise.nil
    | cons w rest =>
      unfold countOccAux
      have hflen : (rest.filter (fun x => x != w)).length ≤ fuel := by
        have := List.length_filter_le (fun x => x != w) rest
        simp only [List.length_cons] at hl
        omega
      refine List.Pairwise.cons ?_ ?_
      · intro b hb
        have hbk : b.1 ∈ rest.filter (fun x => x != w) := mem_countOccAux fuel _ b hb
        have hbne : w ≠ b.1 := by
          have := (List.mem_filter.mp hbk).2
          simp at this
          exact fun hx => this hx.symm
        unfold firstIdx
        rw [if_pos rfl, if_neg hbne]
        omega
      · have hpw := ih _ hflen
        refine hpw.imp_of_mem ?_
        intro a b ha hb hab
        have hak : a.1 ∈ rest.filter (fun x => x != w) := mem_countOccAux fuel _ a ha
        have hbk : b.1 ∈ rest.filter (fun x => x != w) := mem_countOccAux fuel _ b hb
        have hane : w ≠ a.1 := by
          have := (List.mem_filter.mp hak).2
          simp at this
          exact fun hx => this hx.symm
        have hbne : w ≠ b.1 := by
          have := (List.mem_filter.mp hbk).2
          simp at this
          exact fun hx => this hx.symm
        have := firstIdx_filter_lt (fun x => x != w) rest a.1 b.1 hak hbk hab
        unfold firstIdx
        rw [if_neg hane, if_neg hbne]
        omega

/-- Counter keys of the full counter appear in first-occurrence
order. -/
theorem countOcc_pairwise (ws : List String) :
    (countOcc ws).Pairwise (fun a b => firstIdx ws a.1 < firstIdx ws b.1) :=
  countOccAux_pairwise ws.length ws (Nat.le_refl _)

/-- Keys of the full counter come from the counted list. -/
theorem mem_countOcc (ws : List String) (p : String × Nat) (hp : p ∈ countOcc ws) :
    p.1 ∈ ws :=
  mem_countOccAux ws.length ws p hp

/-! ### Stability of the descending insertion sort -/

/-- Inserting an entry whose token occurs before every present token
preserves the ranked order. -/
theorem pairwise_orderedInsert_ranked (ws : List String) (a : String × Nat) :
    ∀ l : List (String × Nat), l.Pairwise (rankedBefore ws) →
      (∀ b ∈ l, firstIdx ws a.1 < firstIdx ws b.1) →
      (List.orderedInsert byCountDesc a l).Pairwise (rankedBefore ws) := by
  intro l
  induction l with
  | nil =>
    intro _ _
    simp [List.orderedInsert]
  | cons b l ih =>
    intro hl hT
    rw [List.orderedInsert]
    by_cases hab : byCountDesc a b
    · rw [if_pos hab]
      refine List.Pairwise.cons ?_ hl
      intro x hx
      rcases List.mem_cons.mp hx with rfl | hx
      · exact ⟨hab, fun _ => hT x (List.mem_cons_self _ _)⟩
      · have hbx := List.rel_of_pairwise_cons hl hx
        exact ⟨Nat.le_trans hbx.1 hab, fun _ => hT x (List.mem_cons_of_mem _ hx)⟩
    · rw [if_neg hab]
      refine List.Pairwise.cons ?_ ?_
      · intro x hx
        rcases (List.mem_orderedInsert byCountDesc).mp hx with rfl | hx
        · unfold byCountDesc at hab
          unfold rankedBefore
          constructor
          · omega
          · intro he
            omega
        · exact List.rel_of_pairwise_cons hl hx
      · exact ih (List.Pairwise.of_cons hl) fun x hx => hT x (List.mem_cons_of_mem _ hx)

/-- Sorting a stream whose entries stand in first-occurrence order
yields the ranked order: descending counts, ties by first
occurrence. -/
theorem pairwise_insertionSort_ranked (ws : List String) :
    ∀ l : List (String × Nat),
      l.Pairwise (fun a b => firstIdx ws a.1 < firstIdx ws b.1) →
      (l.insertionSort byCountDesc).Pairwise (rankedBefore ws) := by
  intro l
  induction l with
  | nil =>
    intro _
    exact List.Pairwise.nil
  | cons a l ih =>
    intro hl
    rw [List.insertionSort]
    refine pairwise_orderedInsert_ranked ws a _ (ih (List.Pairwise.of_cons hl)) ?_
    intro b hb
    exact List.rel_of_pairwise_cons hl ((List.mem_insertionSort byCountDesc).mp hb)

/-! ### Claim theorems: lexical aggregator -/

/-- C5: on any input (with a positive minimum length, the regime where
the token regex is modelled), the aggregator output has at most
`max_words` entries, stands in non-increasing count order with ties in
first-occurrence order of the scanned word stream, and every token is a
lowercase all-letter word of length at least `min_length` outside the
stop-word set. -/
theorem extract_common_words_spec (cs : List Comment) (minLen maxWords : Nat)
    (stops : List String) (res : List (String × Nat)) (_hmin : 1 ≤ minLen)
    (h : extract_common_words cs minLen maxWords stops = some res) :
    ∃ ws, allTokens minLen stops cs = some ws ∧
      res.length ≤ maxWords ∧
      res.Pairwise (rankedBefore ws) ∧
      ∀ p ∈ res, minLen ≤ p.1.length ∧ p.1.data.all Char.isAlpha = true ∧
        p.1.data.all Char.isLower = true ∧ p.1 ∉ stops := by
  unfold extract_common_words at h
  cases hws : allTokens minLen stops cs with
  | none => rw [hws] at h; exact absurd h (by simp)
  | some ws =>
    rw [hws] at h
    simp only [Option.map_some'] at h
    cases h
    refine ⟨ws, rfl, ?_, ?_, ?_⟩
    · unfold mostCommon
      simp only [List.length_take]
      omega
    · unfold mostCommon
      exact ((pairwise_insertionSort_ranked ws _ (countOcc_pairwise ws)).sublist
        (List.take_sublist _ _))
    · intro p hp
      have hp1 : p ∈ (countOcc ws).insertionSort byCountDesc :=
        (List.take_sublist _ _).mem hp
      have hp2 : p ∈ countOcc ws := (List.mem_insertionSort byCountDesc).mp hp1
      exact allTokens_facts minLen stops cs ws hws p.1 (mem_countOcc ws p hp2)

/-- A comment whose text produces the token stream
`great video great stuff`. -/
def exC5Comment : Comment :=
  ⟨"erin", some "Great video! great stuff", "2024", 3, 1, none, none, none⟩

/-- Witness for `extract_common_words_spec` on `exC5Comment`: the
counter yields great twice, then video and stuff once each, in ranked
order. -/
theorem extract_common_words_spec_witness :
    ∃ ws, allTokens 4 defaultStopwords [exC5Comment] = some ws ∧
      ([("great", 2), ("video", 1), ("stuff", 1)] : List (String × Nat)).length ≤ 10 ∧
      ([("great", 2), ("video", 1), ("stuff", 1)] : List (String × Nat)).Pairwise
        (rankedBefore ws) ∧
      ∀ p ∈ ([("great", 2), ("video", 1), ("stuff", 1)] : List (String × Nat)),
        4 ≤ p.1.length ∧ p.1.data.all Char.isAlpha = true ∧
          p.1.data.all Char.isLower = true ∧ p.1 ∉ defaultStopwords :=
  extract_common_words_spec [exC5Comment] 4 10 defaultStopwords
    [("great", 2), ("video", 1), ("stuff", 1)] (by decide) (by decide)

end CommentInsights
